import Mathlib

/-!
Verification of the array-backed binary heap (priority queue) from
`src/exercises/algorithm/algorithm9.rs`.

The Rust `Heap<T>` stores `count : usize`, `items : Vec<T>` and a fixed
`comparator : fn(&T, &T) -> bool`.  We embed it shallowly: `Vec<T>` becomes
`List α`, `usize` becomes `Nat` (with the guarded subtractions modelled
explicitly where underflow matters), the `T : Default` bound becomes
`Inhabited α`, and panicking index accesses are modelled in two layers: a
total layer using the default element (`nth`), used to state functional
behaviour, and a checked `Option` layer (`nth?`, `bubble_up_chk`, ...) whose
`none` marks exactly the places where the Rust code would panic.
-/

set_option maxHeartbeats 1000000

namespace Algorithm9

variable {α : Type} [Inhabited α]

/-- `items[i]` in Rust; total version, returning the `Default::default()`
stand-in out of bounds (the Rust bound `T : Default`). -/
def nth (l : List α) (i : Nat) : α := l.getD i default

/-- `self.items.swap(i, j)` from `Vec::swap`: place `l[j]` at `i` and `l[i]` at `j`. -/
def lswap (l : List α) (i j : Nat) : List α := (l.set i (nth l j)).set j (nth l i)

/-- The heap structure: `count`, `items`, `comparator` (algorithm9.rs lines 4-11). -/
structure Heap (α : Type) where
  count : Nat
  items : List α
  comparator : α → α → Bool

/-- `Heap::new(comparator)`: empty heap. -/
def Heap.new (comparator : α → α → Bool) : Heap α :=
  { count := 0, items := [], comparator := comparator }

/-- `Heap::len`. -/
def Heap.len (h : Heap α) : Nat := h.count

/-- `Heap::is_empty`: `self.len() == 0`. -/
def Heap.is_empty (h : Heap α) : Bool := h.len == 0

/-- `Heap::parent_idx`: `(idx - 1) / 2` on `usize` (caller keeps `idx > 0`). -/
def parent_idx (idx : Nat) : Nat := (idx - 1) / 2

/-- `Heap::left_child_idx`: `2 * idx + 1`. -/
def left_child_idx (idx : Nat) : Nat := 2 * idx + 1

/-- `Heap::right_child_idx`: `2 * idx + 2`. -/
def right_child_idx (idx : Nat) : Nat := 2 * idx + 2

/-- `Heap::smallest_child_idx`, abstracted over the fields it reads
(`self.comparator`, `self.count`, `self.items`). -/
def smallest_child_idx (cmp : α → α → Bool) (count : Nat) (items : List α)
    (idx : Nat) : Option Nat :=
  let left := left_child_idx idx
  let right := right_child_idx idx
  if left < count then
    if right < count then
      if cmp (nth items left) (nth items right) then some left else some right
    else some left
  else none

/-- The loop of `Heap::bubble_down` (algorithm9.rs lines 70-79), with the
current index (`parent_idx` in the Rust local) as explicit argument. -/
def bubble_down_aux (cmp : α → α → Bool) (count : Nat) (items : List α)
    (pidx : Nat) : List α :=
  match hsc : smallest_child_idx cmp count items pidx with
  | none => items
  | some cidx =>
    if cmp (nth items pidx) (nth items cidx) then items
    else bubble_down_aux cmp count (lswap items pidx cidx) cidx
termination_by count - pidx
decreasing_by
  unfold smallest_child_idx at hsc
  simp only [left_child_idx, right_child_idx] at hsc
  split at hsc
  · split at hsc
    · split at hsc <;> (injection hsc with hsc; omega)
    · injection hsc with hsc; omega
  · exact absurd hsc (by simp)

/-- The loop of `Heap::bubble_up` (algorithm9.rs lines 81-92), with the
current index (`child_idx` in the Rust local) as explicit argument. -/
def bubble_up_aux (cmp : α → α → Bool) (items : List α) (cidx : Nat) : List α :=
  if cidx = 0 then items
  else if cmp (nth items cidx) (nth items (parent_idx cidx)) then
    bubble_up_aux cmp (lswap items cidx (parent_idx cidx)) (parent_idx cidx)
  else items
termination_by cidx
decreasing_by
  simp only [parent_idx]
  omega

/-- `Heap::add`: push, increment count, bubble the new last element up. -/
def Heap.add (h : Heap α) (value : α) : Heap α :=
  { h with
    count := h.count + 1,
    items := bubble_up_aux h.comparator (h.items ++ [value]) (h.count + 1 - 1) }

/-- `<Heap as Iterator>::next` (algorithm9.rs lines 116-125): if empty return
`None`; otherwise `swap_remove(0)` (swap index 0 with the last slot, pop it),
decrement count, bubble index 0 down, and return the old root.  Returns the
yielded value together with the updated heap. -/
def Heap.next (h : Heap α) : Option α × Heap α :=
  if h.is_empty then (none, h)
  else
    let top := nth h.items 0
    let items1 := (lswap h.items 0 (h.items.length - 1)).dropLast
    let count1 := h.count - 1
    (some top,
      { h with count := count1,
               items := bubble_down_aux h.comparator count1 items1 0 })

/-- The min comparator `|a, b| a < b` of `Heap::new_min` / `MinHeap::new`. -/
def cmp_lt {β : Type} [LinearOrder β] : β → β → Bool := fun a b => decide (a < b)

/-- The max comparator `|a, b| a > b` of `Heap::new_max` / `MaxHeap::new`. -/
def cmp_gt {β : Type} [LinearOrder β] : β → β → Bool := fun a b => decide (a > b)

/-- `Heap::new_min` (also `MinHeap::new`). -/
def Heap.new_min [LinearOrder α] : Heap α := Heap.new cmp_lt

/-- `Heap::new_max` (also `MaxHeap::new`). -/
def Heap.new_max [LinearOrder α] : Heap α := Heap.new cmp_gt

/-- The structural invariant `count == items.length` (spec section 3). -/
def Heap.wf (h : Heap α) : Prop := h.count = h.items.length

/-- The heap-order invariant with respect to a relation `le`:
every non-root position is `le`-above its parent. -/
def heapInv (le : α → α → Prop) (count : Nat) (items : List α) : Prop :=
  ∀ i, 0 < i → i < count → le (nth items (parent_idx i)) (nth items i)

/-- The hypotheses on a comparator/order pair under which the heap works:
`cmp` answering `true` certifies `le` one way, answering `false` the other,
and `le` is a preorder. -/
structure Compat (cmp : α → α → Bool) (le : α → α → Prop) : Prop where
  to_le : ∀ a b, cmp a b = true → le a b
  to_ge : ∀ a b, cmp a b = false → le b a
  refl : ∀ a, le a a
  trans : ∀ a b c, le a b → le b c → le a c

/-- Loop invariant of `bubble_up`: the heap-order relation holds everywhere
except possibly between the moving position `j` and its parent, and `j`'s own
children are already dominated by `j`'s parent. -/
def upOk (le : α → α → Prop) (count : Nat) (items : List α) (j : Nat) : Prop :=
  (∀ i, 0 < i → i < count → i ≠ j →
    le (nth items (parent_idx i)) (nth items i)) ∧
  (∀ i, 0 < i → i < count → parent_idx i = j → 0 < j →
    le (nth items (parent_idx j)) (nth items i))

/-- Loop invariant of `bubble_down`: the heap-order relation holds for every
parent/child pair whose parent is not the moving position `j`, and `j`'s
children are dominated by `j`'s parent. -/
def downOk (le : α → α → Prop) (count : Nat) (items : List α) (j : Nat) : Prop :=
  (∀ i, 0 < i → i < count → parent_idx i ≠ j →
    le (nth items (parent_idx i)) (nth items i)) ∧
  (∀ i, 0 < i → i < count → parent_idx i = j → 0 < j →
    le (nth items (parent_idx j)) (nth items i))

/-- Heap-order invariant of a heap value. -/
def Heap.inv (le : α → α → Prop) (h : Heap α) : Prop :=
  heapInv le h.count h.items

/-- Repeatedly call `next`, collecting the yielded values, stopping at `None`
(or when the fuel runs out; fuel `h.count` is always enough). -/
def drainAux : Nat → Heap α → List α
  | 0, _ => []
  | fuel + 1, h =>
    match h.next with
    | (none, _) => []
    | (some x, h2) => x :: drainAux fuel h2

/-- The full extraction sequence of a heap. -/
def Heap.drain (h : Heap α) : List α := drainAux h.count h

/-- Build a heap by `add`ing the elements of a list, left to right. -/
def heap_of_list (cmp : α → α → Bool) (l : List α) : Heap α :=
  l.foldl Heap.add (Heap.new cmp)

/-- An abstract client operation: one `add` call or one `next` call. -/
inductive Op (α : Type) where
  | push (v : α)
  | pop

/-- Run a list of operations against a heap, threading the state. -/
def Heap.run (h : Heap α) : List (Op α) → Heap α
  | [] => h
  | Op.push v :: rest => Heap.run (h.add v) rest
  | Op.pop :: rest => Heap.run (h.next).2 rest

/-- Run a list of operations, also counting the `add` calls and the `next`
calls that returned a value. -/
def Heap.run_stats (h : Heap α) : List (Op α) → Heap α × Nat × Nat
  | [] => (h, 0, 0)
  | Op.push v :: rest =>
    let r := Heap.run_stats (h.add v) rest
    (r.1, r.2.1 + 1, r.2.2)
  | Op.pop :: rest =>
    let r := Heap.run_stats (h.next).2 rest
    (r.1, r.2.1, if (h.next).1.isSome then r.2.2 + 1 else r.2.2)

/-! ### Checked layer: `none` marks exactly where the Rust code would panic -/

/-- Checked `items[i]`: `none` when Rust `Index` would panic. -/
def nth? (l : List α) (i : Nat) : Option α := l.get? i

/-- Checked `parent_idx`: `(idx - 1)` underflows on `usize` when `idx = 0`. -/
def parent_idx_chk (idx : Nat) : Option Nat :=
  if idx = 0 then none else some ((idx - 1) / 2)

/-- Checked `Vec::swap`: panics when an index is out of bounds. -/
def lswap_chk (l : List α) (i j : Nat) : Option (List α) :=
  if i < l.length then
    if j < l.length then some (lswap l i j) else none
  else none

/-- Checked `smallest_child_idx`: the only element accesses are the two in the
both-children branch. -/
def smallest_child_idx_chk (cmp : α → α → Bool) (count : Nat) (items : List α)
    (idx : Nat) : Option (Option Nat) :=
  if left_child_idx idx < count then
    if right_child_idx idx < count then
      match nth? items (left_child_idx idx), nth? items (right_child_idx idx) with
      | some lv, some rv =>
        some (if cmp lv rv then some (left_child_idx idx)
              else some (right_child_idx idx))
      | _, _ => none
    else some (some (left_child_idx idx))
  else some none

/-- Checked `bubble_down` loop. -/
def bubble_down_chk (cmp : α → α → Bool) (count : Nat) (items : List α)
    (pidx : Nat) : Option (List α) :=
  match hsc : smallest_child_idx_chk cmp count items pidx with
  | none => none
  | some none => some items
  | some (some cidx) =>
    match nth? items pidx, nth? items cidx with
    | some pv, some cv =>
      if cmp pv cv then some items
      else
        match lswap_chk items pidx cidx with
        | some items2 => bubble_down_chk cmp count items2 cidx
        | none => none
    | _, _ => none
termination_by count - pidx
decreasing_by
  unfold smallest_child_idx_chk at hsc
  simp only [left_child_idx, right_child_idx] at hsc
  split at hsc
  · split at hsc
    · split at hsc
      · split at hsc <;>
          (injection hsc with hsc; injection hsc with hsc; omega)
      · exact absurd hsc (by simp)
    · injection hsc with hsc
      injection hsc with hsc
      omega
  · injection hsc with hsc
    exact absurd hsc (by simp)

/-- Checked `bubble_up` loop. -/
def bubble_up_chk (cmp : α → α → Bool) (items : List α) (cidx : Nat) :
    Option (List α) :=
  if h0 : cidx = 0 then some items
  else
    match hp : parent_idx_chk cidx with
    | none => none
    | some pidx =>
      match nth? items cidx, nth? items pidx with
      | some cv, some pv =>
        if cmp cv pv then
          match lswap_chk items cidx pidx with
          | some items2 => bubble_up_chk cmp items2 pidx
          | none => none
        else some items
      | _, _ => none
termination_by cidx
decreasing_by
  unfold parent_idx_chk at hp
  rw [if_neg h0] at hp
  injection hp with hp
  omega

/-- Checked `Heap::add`. -/
def Heap.add_chk (h : Heap α) (value : α) : Option (Heap α) :=
  match bubble_up_chk h.comparator (h.items ++ [value]) (h.count + 1 - 1) with
  | none => none
  | some items2 => some { h with count := h.count + 1, items := items2 }

/-- Checked `Vec::swap_remove(0)`: panics exactly when the vector is empty. -/
def swap_remove_front_chk (l : List α) : Option (α × List α) :=
  match nth? l 0 with
  | none => none
  | some x => some (x, (lswap l 0 (l.length - 1)).dropLast)

/-- Checked `<Heap as Iterator>::next`. -/
def Heap.next_chk (h : Heap α) : Option (Option α × Heap α) :=
  if h.is_empty then some (none, h)
  else
    match swap_remove_front_chk h.items with
    | none => none
    | some (top, items1) =>
      match bubble_down_chk h.comparator (h.count - 1) items1 0 with
      | none => none
      | some items2 =>
        some (some top, { h with count := h.count - 1, items := items2 })

/-! ### Fuel layer: loop iteration counts are bounded for every comparator -/

/-- `bubble_up` loop with an explicit iteration budget; `none` means the
budget was exhausted before the loop exited. -/
def bubble_up_fuel (cmp : α → α → Bool) : Nat → List α → Nat → Option (List α)
  | 0, _, _ => none
  | fuel + 1, items, cidx =>
    if cidx = 0 then some items
    else if cmp (nth items cidx) (nth items (parent_idx cidx)) then
      bubble_up_fuel cmp fuel (lswap items cidx (parent_idx cidx)) (parent_idx cidx)
    else some items

/-- `bubble_down` loop with an explicit iteration budget. -/
def bubble_down_fuel (cmp : α → α → Bool) (count : Nat) :
    Nat → List α → Nat → Option (List α)
  | 0, _, _ => none
  | fuel + 1, items, pidx =>
    match smallest_child_idx cmp count items pidx with
    | none => some items
    | some cidx =>
      if cmp (nth items pidx) (nth items cidx) then some items
      else bubble_down_fuel cmp count fuel (lswap items pidx cidx) cidx

/-! ### Basic facts about `nth` and `lswap` -/

theorem smallest_child_idx_some {cmp : α → α → Bool} {count : Nat}
    {items : List α} {idx cidx : Nat}
    (h : smallest_child_idx cmp count items idx = some cidx) :
    idx < cidx ∧ cidx < count := by
  unfold smallest_child_idx at h
  simp only [left_child_idx, right_child_idx] at h
  split at h
  · split at h
    · split at h <;> (injection h with h; omega)
    · injection h with h; omega
  · exact absurd h (by simp)


theorem nth_eq_getElem (l : List α) (i : Nat) (h : i < l.length) :
    nth l i = l[i] := by
  simp [nth, List.getD_eq_getElem?_getD, List.getElem?_eq_getElem h]

theorem nth_append_left (l : List α) (v : α) (i : Nat) (h : i < l.length) :
    nth (l ++ [v]) i = nth l i := by
  rw [nth_eq_getElem _ _ (by simp; omega), nth_eq_getElem _ _ h]
  exact List.getElem_append_left h

theorem length_lswap (l : List α) (i j : Nat) :
    (lswap l i j).length = l.length := by
  simp [lswap]

theorem nth_lswap_fst (l : List α) (i j : Nat) (hi : i < l.length)
    (hj : j < l.length) : nth (lswap l i j) i = nth l j := by
  by_cases hij : i = j
  · subst hij
    rw [nth_eq_getElem _ _ (by simp [lswap, hi])]
    simp [lswap, List.getElem_set, hi]
  · rw [nth_eq_getElem _ _ (by simp [lswap, hi])]
    simp [lswap, List.getElem_set, hij, Ne.symm hij]

theorem nth_lswap_snd (l : List α) (i j : Nat) (hi : i < l.length)
    (hj : j < l.length) : nth (lswap l i j) j = nth l i := by
  by_cases hij : i = j
  · subst hij
    rw [nth_eq_getElem _ _ (by simp [lswap, hi])]
    simp [lswap, List.getElem_set, hi]
  · rw [nth_eq_getElem _ _ (by simp [lswap, hj])]
    simp [lswap, List.getElem_set]

theorem nth_lswap_other (l : List α) (i j k : Nat) (hki : k ≠ i) (hkj : k ≠ j) :
    nth (lswap l i j) k = nth l k := by
  simp [nth, lswap, List.getD_eq_getElem?_getD,
    List.getElem?_set_ne (Ne.symm hkj), List.getElem?_set_ne (Ne.symm hki)]

/-- Moving `t[m]` to the front while writing `a` into slot `m` permutes
`a :: t`. -/
theorem get_cons_set_perm (t : List α) (m : Nat) (a : α) (hm : m < t.length) :
    List.Perm (t[m] :: t.set m a) (a :: t) := by
  induction t generalizing m with
  | nil => simp at hm
  | cons b t' ih =>
    cases m with
    | zero => simpa using List.Perm.swap a b t'
    | succ m' =>
      have hm' : m' < t'.length := by simpa using hm
      have step := (ih m' hm').cons b
      exact (List.Perm.swap b _ _).trans (step.trans (List.Perm.swap a b t'))

theorem lswap_perm (l : List α) (i j : Nat) (hi : i < l.length)
    (hj : j < l.length) : List.Perm (lswap l i j) l := by
  by_cases hij : i = j
  · subst hij
    have h1 : lswap l i i = l.set i (nth l i) := by
      simp [lswap]
    rw [h1, nth_eq_getElem _ _ hi]
    have := get_cons_set_perm l i (l[i]) hi
    exact (List.perm_cons (l[i])).mp this
  · -- reduce to the case `i < j` by symmetry of the double `set`
    have symm_case : ∀ (i j : Nat), i < j → j < l.length →
        List.Perm (lswap l i j) l := by
      intro i j hlt hjl
      have hil : i < l.length := lt_trans hlt hjl
      -- peel off the common prefix by induction
      clear hij hi hj
      induction l generalizing i j with
      | nil => simp at hjl
      | cons b t ih =>
        cases i with
        | zero =>
          cases j with
          | zero => omega
          | succ j' =>
            have hj' : j' < t.length := by simpa using hjl
            have h0 : nth (b :: t) 0 = b := by simp [nth]
            have h1 : lswap (b :: t) 0 (j' + 1)
                = t[j'] :: t.set j' b := by
              simp [lswap, nth_eq_getElem _ _ hjl, h0,
                List.getElem_cons_succ]
            rw [h1]
            exact get_cons_set_perm t j' b hj'
        | succ i' =>
          cases j with
          | zero => omega
          | succ j' =>
            have hj' : j' < t.length := by simpa using hjl
            have hi' : i' < t.length := by omega
            have h1 : lswap (b :: t) (i' + 1) (j' + 1) = b :: lswap t i' j' := by
              simp [lswap, nth, List.getD_eq_getElem?_getD]
            rw [h1]
            exact (ih i' j' (by omega) hj' hi').cons b
    rcases lt_or_gt_of_ne hij with h | h
    · exact symm_case i j h hj
    · have hcomm : lswap l i j = lswap l j i := by
        simp [lswap, List.set_comm _ _ _ (Ne.symm hij)]
      rw [hcomm]
      exact symm_case j i h hi

/-! ### Lengths and permutations of the two rebalancing loops -/

theorem length_bubble_up_aux (cmp : α → α → Bool) (items : List α) (cidx : Nat) :
    (bubble_up_aux cmp items cidx).length = items.length := by
  unfold bubble_up_aux
  split
  · rfl
  · split
    · rw [length_bubble_up_aux cmp (lswap items cidx (parent_idx cidx)) (parent_idx cidx)]
      exact length_lswap ..
    · rfl
termination_by cidx
decreasing_by
  simp only [parent_idx]
  omega

theorem length_bubble_down_aux (cmp : α → α → Bool) (count : Nat)
    (items : List α) (pidx : Nat) :
    (bubble_down_aux cmp count items pidx).length = items.length := by
  unfold bubble_down_aux
  split
  · rfl
  · rename_i cidx hsc
    split
    · rfl
    · rw [length_bubble_down_aux cmp count (lswap items pidx cidx) cidx]
      exact length_lswap ..
termination_by count - pidx
decreasing_by
  rename_i heq hcmp
  have := smallest_child_idx_some heq
  omega

theorem bubble_up_aux_perm (cmp : α → α → Bool) (items : List α) (cidx : Nat)
    (h : cidx < items.length) :
    List.Perm (bubble_up_aux cmp items cidx) items := by
  unfold bubble_up_aux
  split
  · exact List.Perm.refl _
  · rename_i h0
    split
    · have hp : parent_idx cidx < cidx := by
        simp only [parent_idx]; omega
      have hswap := lswap_perm items cidx (parent_idx cidx) h (by omega)
      have hrec := bubble_up_aux_perm cmp (lswap items cidx (parent_idx cidx))
        (parent_idx cidx) (by rw [length_lswap]; omega)
      exact hrec.trans hswap
    · exact List.Perm.refl _
termination_by cidx
decreasing_by
  simp only [parent_idx]
  omega

theorem bubble_down_aux_perm (cmp : α → α → Bool) (count : Nat)
    (items : List α) (pidx : Nat) (hlen : count ≤ items.length) :
    List.Perm (bubble_down_aux cmp count items pidx) items := by
  unfold bubble_down_aux
  split
  · exact List.Perm.refl _
  · rename_i cidx hsc
    have hb := smallest_child_idx_some hsc
    split
    · exact List.Perm.refl _
    · have hswap := lswap_perm items pidx cidx (by omega) (by omega)
      have hrec := bubble_down_aux_perm cmp count (lswap items pidx cidx) cidx
        (by rw [length_lswap]; omega)
      exact hrec.trans hswap
termination_by count - pidx
decreasing_by
  rename_i heq hcmp
  have := smallest_child_idx_some heq
  omega

/-! ### Structural facts about the public operations -/

theorem Heap.new_wf (cmp : α → α → Bool) : (Heap.new cmp).wf := rfl

theorem Heap.add_count (h : Heap α) (v : α) : (h.add v).count = h.count + 1 := rfl

theorem Heap.add_comparator (h : Heap α) (v : α) :
    (h.add v).comparator = h.comparator := rfl

theorem Heap.add_wf (h : Heap α) (v : α) (hw : h.wf) : (h.add v).wf := by
  show h.count + 1 = _
  rw [Heap.wf] at hw
  simp [Heap.add, length_bubble_up_aux, hw]

theorem Heap.add_items_perm (h : Heap α) (v : α) (hw : h.wf) :
    List.Perm (h.add v).items (v :: h.items) := by
  rw [Heap.wf] at hw
  have hlt : h.count + 1 - 1 < (h.items ++ [v]).length := by simp; omega
  have hperm := bubble_up_aux_perm h.comparator (h.items ++ [v]) (h.count + 1 - 1) hlt
  exact hperm.trans (List.perm_append_singleton v h.items)

theorem Heap.next_empty (h : Heap α) (hc : h.count = 0) : h.next = (none, h) := by
  simp [Heap.next, Heap.is_empty, Heap.len, hc]

theorem Heap.next_pos_fst (h : Heap α) (hc : 0 < h.count) :
    (h.next).1 = some (nth h.items 0) := by
  simp [Heap.next, Heap.is_empty, Heap.len, Nat.pos_iff_ne_zero.mp hc]

theorem Heap.next_pos_count (h : Heap α) (hc : 0 < h.count) :
    (h.next).2.count = h.count - 1 := by
  simp [Heap.next, Heap.is_empty, Heap.len, Nat.pos_iff_ne_zero.mp hc]

theorem Heap.next_comparator (h : Heap α) : (h.next).2.comparator = h.comparator := by
  unfold Heap.next
  split <;> rfl

theorem Heap.next_pos_items (h : Heap α) (hc : 0 < h.count) :
    (h.next).2.items
      = bubble_down_aux h.comparator (h.count - 1)
          ((lswap h.items 0 (h.items.length - 1)).dropLast) 0 := by
  simp [Heap.next, Heap.is_empty, Heap.len, Nat.pos_iff_ne_zero.mp hc]

theorem Heap.next_wf (h : Heap α) (hw : h.wf) : (h.next).2.wf := by
  rcases Nat.eq_zero_or_pos h.count with hc | hc
  · rw [Heap.next_empty h hc]; exact hw
  · rw [Heap.wf] at hw
    rw [Heap.wf, Heap.next_pos_count h hc, Heap.next_pos_items h hc]
    rw [length_bubble_down_aux]
    simp [length_lswap]
    omega

/-- After a successful extraction the returned root together with the new
contents permutes the old contents. -/
theorem Heap.next_pos_items_perm (h : Heap α) (hw : h.wf) (hc : 0 < h.count) :
    List.Perm (nth h.items 0 :: (h.next).2.items) h.items := by
  rw [Heap.wf] at hw
  have hne : h.items ≠ [] := by
    intro hnil
    rw [hnil] at hw
    simp at hw
    omega
  rw [Heap.next_pos_items h hc]
  have hlen1 : ((lswap h.items 0 (h.items.length - 1)).dropLast).length
      = h.items.length - 1 := by
    simp [length_lswap]
  have hdown := bubble_down_aux_perm h.comparator (h.count - 1)
    ((lswap h.items 0 (h.items.length - 1)).dropLast) 0 (by omega)
  -- the swapped list decomposes as (dropLast part) ++ [old root]
  have hlast : lswap h.items 0 (h.items.length - 1)
      = (lswap h.items 0 (h.items.length - 1)).dropLast
        ++ [nth h.items 0] := by
    have hne2 : lswap h.items 0 (h.items.length - 1) ≠ [] := by
      intro hnil
      have := length_lswap h.items 0 (h.items.length - 1)
      rw [hnil] at this
      simp at this
      exact hne (List.length_eq_zero.mp this.symm)
    have hgl := List.dropLast_append_getLast hne2
    have hlast_val : (lswap h.items 0 (h.items.length - 1)).getLast hne2
        = nth h.items 0 := by
      rw [List.getLast_eq_getElem]
      have hidx : (lswap h.items 0 (h.items.length - 1)).length - 1
          = h.items.length - 1 := by rw [length_lswap]
      have hpos : h.items.length - 1 < h.items.length := by
        have := List.length_pos.mpr hne
        omega
      have := nth_lswap_snd h.items 0 (h.items.length - 1)
        (List.length_pos.mpr hne) hpos
      rw [nth_eq_getElem _ _ (by rw [length_lswap]; exact hpos)] at this
      simp only [hidx]
      exact this
    rw [hlast_val] at hgl
    exact hgl.symm
  have hswap := lswap_perm h.items 0 (h.items.length - 1)
    (List.length_pos.mpr hne) (by have := List.length_pos.mpr hne; omega)
  have hstep : List.Perm
      (nth h.items 0 :: (lswap h.items 0 (h.items.length - 1)).dropLast)
      (lswap h.items 0 (h.items.length - 1)) := by
    conv_rhs => rw [hlast]
    exact (List.perm_append_singleton _ _).symm
  exact ((hdown.cons _).trans hstep).trans hswap

/-! ### The heap-order invariant and its preservation -/

theorem parent_idx_lt (i : Nat) (hi : 0 < i) : parent_idx i < i := by
  simp only [parent_idx]
  omega

theorem parent_idx_children (i j : Nat) (hi : 0 < i) :
    parent_idx i = j ↔ i = 2 * j + 1 ∨ i = 2 * j + 2 := by
  simp only [parent_idx]
  omega

theorem bubble_up_aux_heapInv {cmp : α → α → Bool} {le : α → α → Prop}
    (hc : Compat cmp le) (count : Nat) (items : List α) (j : Nat)
    (hlen : count = items.length) (hj : j < count)
    (hok : upOk le count items j) :
    heapInv le count (bubble_up_aux cmp items j) := by
  unfold bubble_up_aux
  split
  · rename_i h0
    subst h0
    intro i hi0 hic
    exact hok.1 i hi0 hic (by omega)
  · rename_i h0
    split
    · rename_i hcmp
      have hp0 : parent_idx j < j := parent_idx_lt j (by omega)
      have hjl : j < items.length := hlen ▸ hj
      have hpl : parent_idx j < items.length := by omega
      have e1 : nth (lswap items j (parent_idx j)) j = nth items (parent_idx j) :=
        nth_lswap_fst items j (parent_idx j) hjl hpl
      have e2 : nth (lswap items j (parent_idx j)) (parent_idx j) = nth items j :=
        nth_lswap_snd items j (parent_idx j) hjl hpl
      have e3 : ∀ k, k ≠ j → k ≠ parent_idx j →
          nth (lswap items j (parent_idx j)) k = nth items k :=
        fun k hk1 hk2 => nth_lswap_other items j (parent_idx j) k hk1 hk2
      have hle_up : le (nth items j) (nth items (parent_idx j)) :=
        hc.to_le _ _ hcmp
      apply bubble_up_aux_heapInv hc count _ (parent_idx j)
        (by rw [length_lswap]; exact hlen) (by omega)
      constructor
      · intro i hi0 hic hip
        by_cases hij : i = j
        · subst hij
          rw [e1, e2]
          exact hle_up
        · by_cases hpij : parent_idx i = j
          · have hine : i ≠ parent_idx j := by
              have := parent_idx_lt i hi0
              omega
            rw [e3 i hij hine, hpij, e1]
            exact hok.2 i hi0 hic hpij (by omega)
          · by_cases hpip : parent_idx i = parent_idx j
            · have hine : i ≠ parent_idx j := by
                have := parent_idx_lt i hi0
                omega
              rw [e3 i hij hine, hpip, e2]
              have h2 := hok.1 i hi0 hic hij
              rw [hpip] at h2
              exact hc.trans _ _ _ hle_up h2
            · have hine : i ≠ parent_idx j := hip
              rw [e3 i hij hine, e3 (parent_idx i) hpij hpip]
              exact hok.1 i hi0 hic hij
      · intro i hi0 hic hpi hpj0
        have hpp_lt : parent_idx (parent_idx j) < parent_idx j :=
          parent_idx_lt _ hpj0
        have hppne1 : parent_idx (parent_idx j) ≠ j := by omega
        have hppne2 : parent_idx (parent_idx j) ≠ parent_idx j := by omega
        rw [e3 _ hppne1 hppne2]
        have hstep : le (nth items (parent_idx (parent_idx j)))
            (nth items (parent_idx j)) :=
          hok.1 (parent_idx j) hpj0 (by omega) (by omega)
        by_cases hij : i = j
        · subst hij
          rw [e1]
          exact hstep
        · have hine : i ≠ parent_idx j := by
            have := parent_idx_lt i hi0
            omega
          rw [e3 i hij hine]
          have h2 := hok.1 i hi0 hic hij
          rw [hpi] at h2
          exact hc.trans _ _ _ hstep h2
    · rename_i hcmp
      have hfalse : cmp (nth items j) (nth items (parent_idx j)) = false :=
        Bool.eq_false_iff.mpr hcmp
      intro i hi0 hic
      by_cases hij : i = j
      · subst hij
        exact hc.to_ge _ _ hfalse
      · exact hok.1 i hi0 hic hij
termination_by j
decreasing_by
  simp only [parent_idx]
  omega

/-- The child returned by `smallest_child_idx` is the one at or below both
children of `idx` in the `le` order. -/
theorem smallest_child_idx_best {cmp : α → α → Bool} {le : α → α → Prop}
    (hc : Compat cmp le) {count : Nat} {items : List α} {idx cidx : Nat}
    (hsc : smallest_child_idx cmp count items idx = some cidx) :
    ∀ i, 0 < i → i < count → parent_idx i = idx →
      le (nth items cidx) (nth items i) := by
  intro i hi0 hic hpi
  have hchild := (parent_idx_children i idx hi0).mp hpi
  unfold smallest_child_idx at hsc
  simp only [left_child_idx, right_child_idx] at hsc
  split at hsc
  · rename_i hl
    split at hsc
    · rename_i hr
      split at hsc
      · rename_i hb
        injection hsc with hsc
        subst hsc
        rcases hchild with h | h
        · subst h; exact hc.refl _
        · subst h; exact hc.to_le _ _ hb
      · rename_i hb
        injection hsc with hsc
        subst hsc
        rcases hchild with h | h
        · subst h
          exact hc.to_ge _ _ (Bool.eq_false_iff.mpr hb)
        · subst h; exact hc.refl _
    · rename_i hr
      injection hsc with hsc
      subst hsc
      rcases hchild with h | h
      · subst h; exact hc.refl _
      · subst h; omega
  · exact absurd hsc (by simp)

theorem bubble_down_aux_heapInv {cmp : α → α → Bool} {le : α → α → Prop}
    (hc : Compat cmp le) (count : Nat) (items : List α) (j : Nat)
    (hlen : count = items.length)
    (hok : downOk le count items j) :
    heapInv le count (bubble_down_aux cmp count items j) := by
  unfold bubble_down_aux
  split
  · rename_i hnone
    intro i hi0 hic
    by_cases hpi : parent_idx i = j
    · -- would require a child of `j` below `count`, but there is none
      exfalso
      have hchild := (parent_idx_children i j hi0).mp hpi
      unfold smallest_child_idx at hnone
      simp only [left_child_idx, right_child_idx] at hnone
      split at hnone
      · split at hnone
        · split at hnone <;> exact absurd hnone (by simp)
        · exact absurd hnone (by simp)
      · omega
    · exact hok.1 i hi0 hic hpi
  · rename_i cidx hsc
    have hb := smallest_child_idx_some hsc
    have hpcidx : parent_idx cidx = j := by
      have hchild : cidx = 2 * j + 1 ∨ cidx = 2 * j + 2 := by
        unfold smallest_child_idx at hsc
        simp only [left_child_idx, right_child_idx] at hsc
        split at hsc
        · split at hsc
          · split at hsc <;> (injection hsc with hsc; omega)
          · injection hsc with hsc; omega
        · exact absurd hsc (by simp)
      exact (parent_idx_children cidx j (by omega)).mpr hchild
    split
    · rename_i hcmp
      intro i hi0 hic
      by_cases hpi : parent_idx i = j
      · have hroot : le (nth items j) (nth items cidx) := hc.to_le _ _ hcmp
        have hbest := smallest_child_idx_best hc hsc i hi0 hic hpi
        rw [hpi]
        exact hc.trans _ _ _ hroot hbest
      · exact hok.1 i hi0 hic hpi
    · rename_i hcmp
      have hfalse : cmp (nth items j) (nth items cidx) = false :=
        Bool.eq_false_iff.mpr hcmp
      have hjl : j < items.length := by omega
      have hcl : cidx < items.length := by omega
      have e1 : nth (lswap items j cidx) j = nth items cidx :=
        nth_lswap_fst items j cidx hjl hcl
      have e2 : nth (lswap items j cidx) cidx = nth items j :=
        nth_lswap_snd items j cidx hjl hcl
      have e3 : ∀ k, k ≠ j → k ≠ cidx →
          nth (lswap items j cidx) k = nth items k :=
        fun k hk1 hk2 => nth_lswap_other items j cidx k hk1 hk2
      apply bubble_down_aux_heapInv hc count _ cidx
        (by rw [length_lswap]; exact hlen)
      constructor
      · intro i hi0 hic hpi
        by_cases hicx : i = cidx
        · subst hicx
          rw [hpcidx, e1, e2]
          exact hc.to_ge _ _ hfalse
        · by_cases hpij : parent_idx i = j
          · -- sibling of the chosen child
            have hine : i ≠ j := by
              have := parent_idx_lt i hi0
              omega
            rw [e3 i hine hicx, hpij, e1]
            exact smallest_child_idx_best hc hsc i hi0 hic hpij
          · by_cases hij : i = j
            · rw [hij]
              have hj0 : 0 < j := hij ▸ hi0
              have hpne1 : parent_idx j ≠ j := by
                have := parent_idx_lt j hj0
                omega
              have hpne2 : parent_idx j ≠ cidx := by
                have := parent_idx_lt j hj0
                omega
              rw [e1, e3 (parent_idx j) hpne1 hpne2]
              exact hok.2 cidx (by omega) (by omega) hpcidx hj0
            · have hicne : i ≠ cidx := hicx
              have hpne2 : parent_idx i ≠ cidx := hpi
              rw [e3 i hij hicne, e3 (parent_idx i) hpij hpne2]
              exact hok.1 i hi0 hic hpij
      · intro i hi0 hic hpi hc0
        rw [hpcidx, e1]
        have hine1 : i ≠ j := by
          have h1 := parent_idx_lt i hi0
          omega
        have hine2 : i ≠ cidx := by
          have := parent_idx_lt i hi0
          omega
        rw [e3 i hine1 hine2]
        have h2 := hok.1 i hi0 hic (by omega)
        rw [hpi] at h2
        exact h2
termination_by count - j
decreasing_by
  rename_i heq hcmp
  have := smallest_child_idx_some heq
  omega

/-! ### The invariant through the public operations -/

theorem Heap.new_inv (cmp : α → α → Bool) (le : α → α → Prop) :
    (Heap.new cmp).inv le :=
  fun i _ hic => absurd hic (Nat.not_lt_zero i)

theorem upOk_push {le : α → α → Prop} (count : Nat) (items : List α) (v : α)
    (hinv : heapInv le count items) (hlen : count = items.length) :
    upOk le (count + 1) (items ++ [v]) count := by
  constructor
  · intro i hi0 hic hij
    have hic' : i < count := by omega
    have hpl : parent_idx i < items.length := by
      have := parent_idx_lt i hi0
      omega
    rw [nth_append_left items v i (by omega), nth_append_left items v (parent_idx i) hpl]
    exact hinv i hi0 hic'
  · intro i hi0 hic hpi hj0
    have := (parent_idx_children i count hi0).mp hpi
    omega

theorem Heap.add_inv {h : Heap α} {le : α → α → Prop}
    (hc : Compat h.comparator le) (v : α) (hw : h.wf) (hinv : h.inv le) :
    (h.add v).inv le := by
  rw [Heap.wf] at hw
  show heapInv le (h.count + 1)
    (bubble_up_aux h.comparator (h.items ++ [v]) (h.count + 1 - 1))
  exact bubble_up_aux_heapInv hc (h.count + 1) (h.items ++ [v]) (h.count + 1 - 1)
    (by simp [hw]) (by omega) (by simpa using upOk_push h.count h.items v hinv hw)

theorem nth_dropLast (l : List α) (k : Nat) (hk : k < l.length - 1) :
    nth l.dropLast k = nth l k := by
  have h1 : k < l.dropLast.length := by simp; omega
  rw [nth_eq_getElem _ _ h1, nth_eq_getElem _ _ (by omega)]
  exact List.getElem_dropLast l k h1

theorem downOk_start {le : α → α → Prop} (h : Heap α) (hw : h.wf)
    (hc0 : 0 < h.count) (hinv : h.inv le) :
    downOk le (h.count - 1) ((lswap h.items 0 (h.items.length - 1)).dropLast) 0 := by
  rw [Heap.wf] at hw
  constructor
  · intro i hi0 hic hpi
    have hplt := parent_idx_lt i hi0
    have hp0 : 0 < parent_idx i := Nat.pos_of_ne_zero hpi
    have hlen2 : (lswap h.items 0 (h.items.length - 1)).length = h.items.length :=
      length_lswap ..
    rw [nth_dropLast _ i (by rw [hlen2]; omega),
        nth_dropLast _ (parent_idx i) (by rw [hlen2]; omega)]
    rw [nth_lswap_other h.items 0 (h.items.length - 1) i (by omega) (by omega),
        nth_lswap_other h.items 0 (h.items.length - 1) (parent_idx i)
          (by omega) (by omega)]
    exact hinv i hi0 (by omega)
  · intro i hi0 hic hpi h0
    exact absurd h0 (lt_irrefl 0)

theorem Heap.next_inv {h : Heap α} {le : α → α → Prop}
    (hc : Compat h.comparator le) (hw : h.wf) (hinv : h.inv le) :
    (h.next).2.inv le := by
  rcases Nat.eq_zero_or_pos h.count with hc0 | hc0
  · rw [Heap.next_empty h hc0]
    exact hinv
  · show heapInv le (h.next).2.count (h.next).2.items
    rw [Heap.next_pos_count h hc0, Heap.next_pos_items h hc0]
    have hwl : h.count = h.items.length := hw
    exact bubble_down_aux_heapInv hc (h.count - 1) _ 0
      (by simp [length_lswap]; omega) (downOk_start h hw hc0 hinv)

/-- In a well-ordered heap the root is below every element. -/
theorem heapInv_root_le {cmp : α → α → Bool} {le : α → α → Prop}
    (hc : Compat cmp le) (count : Nat) (items : List α)
    (hinv : heapInv le count items) :
    ∀ i, i < count → le (nth items 0) (nth items i) := by
  intro i
  induction i using Nat.strong_induction_on with
  | _ i ih =>
    intro hic
    rcases Nat.eq_zero_or_pos i with h0 | h0
    · subst h0
      exact hc.refl _
    · have hp := parent_idx_lt i h0
      exact hc.trans _ _ _ (ih (parent_idx i) hp (by omega)) (hinv i h0 hic)

/-! ### Draining the heap: repeated `next` until it yields nothing -/

theorem drainAux_succ (fuel : Nat) (h : Heap α) :
    drainAux (fuel + 1) h
      = match (h.next).1 with
        | none => []
        | some x => x :: drainAux fuel (h.next).2 := by
  cases hn : h.next with
  | mk a b =>
    cases a with
    | none => simp [drainAux, hn]
    | some x => simp [drainAux, hn]

theorem drainAux_spec {cmp : α → α → Bool} {le : α → α → Prop}
    (hc : Compat cmp le) :
    ∀ (fuel : Nat) (h : Heap α), h.comparator = cmp → h.count ≤ fuel → h.wf →
      h.inv le →
      List.Perm (drainAux fuel h) h.items ∧ List.Pairwise le (drainAux fuel h) := by
  intro fuel
  induction fuel with
  | zero =>
    intro h hcmp hcount hw hinv
    have hitems : h.items = [] := by
      rw [Heap.wf] at hw
      exact List.length_eq_zero.mp (by omega)
    simp [drainAux, hitems]
  | succ fuel ih =>
    intro h hcmp hcount hw hinv
    rcases Nat.eq_zero_or_pos h.count with hc0 | hc0
    · have hn := Heap.next_empty h hc0
      have hitems : h.items = [] := by
        rw [Heap.wf] at hw
        exact List.length_eq_zero.mp (by omega)
      rw [drainAux_succ, hn]
      simp [hitems]
    · rw [drainAux_succ, Heap.next_pos_fst h hc0]
      have hw2 : (h.next).2.wf := Heap.next_wf h hw
      have hcmp2 : (h.next).2.comparator = cmp := by
        rw [Heap.next_comparator]
        exact hcmp
      have hinv2 : (h.next).2.inv le := Heap.next_inv (hcmp.symm ▸ hc) hw hinv
      have hcount2 : (h.next).2.count ≤ fuel := by
        rw [Heap.next_pos_count h hc0]
        omega
      obtain ⟨hperm2, hpair2⟩ := ih (h.next).2 hcmp2 hcount2 hw2 hinv2
      refine ⟨(hperm2.cons _).trans (Heap.next_pos_items_perm h hw hc0), ?_⟩
      refine List.Pairwise.cons ?_ hpair2
      intro x hx
      have hx2 : x ∈ (h.next).2.items := hperm2.mem_iff.mp hx
      have hx3 : x ∈ h.items :=
        (Heap.next_pos_items_perm h hw hc0).mem_iff.mp
          (List.mem_cons_of_mem _ hx2)
      obtain ⟨k, hk, hkx⟩ := List.mem_iff_getElem.mp hx3
      have hroot := heapInv_root_le (hcmp.symm ▸ hc) h.count h.items hinv k
        (by rw [Heap.wf] at hw; omega)
      rwa [nth_eq_getElem _ _ hk, hkx] at hroot

/-! ### Building a heap by a sequence of adds, and arbitrary op traces -/

theorem foldl_add_facts {cmp : α → α → Bool} {le : α → α → Prop}
    (hc : Compat cmp le) :
    ∀ (l : List α) (h : Heap α), h.comparator = cmp → h.wf → h.inv le →
      (l.foldl Heap.add h).comparator = cmp ∧ (l.foldl Heap.add h).wf ∧
      (l.foldl Heap.add h).inv le ∧
      List.Perm (l.foldl Heap.add h).items (l ++ h.items) := by
  intro l
  induction l with
  | nil =>
    intro h h1 h2 h3
    exact ⟨h1, h2, h3, List.Perm.refl _⟩
  | cons v l ih =>
    intro h h1 h2 h3
    have h1' : (h.add v).comparator = cmp := h1
    have h2' := Heap.add_wf h v h2
    have h3' := Heap.add_inv (h1.symm ▸ hc) v h2 h3
    obtain ⟨a, b, c, d⟩ := ih (h.add v) h1' h2' h3'
    refine ⟨a, b, c, ?_⟩
    have hstep := Heap.add_items_perm h v h2
    have hmid : List.Perm (l ++ (h.add v).items) (l ++ (v :: h.items)) :=
      List.Perm.append_left l hstep
    exact (d.trans hmid).trans List.perm_middle

theorem heap_of_list_facts {cmp : α → α → Bool} {le : α → α → Prop}
    (hc : Compat cmp le) (l : List α) :
    (heap_of_list cmp l).comparator = cmp ∧ (heap_of_list cmp l).wf ∧
    (heap_of_list cmp l).inv le ∧
    List.Perm (heap_of_list cmp l).items l := by
  obtain ⟨a, b, c, d⟩ := foldl_add_facts hc l (Heap.new cmp) rfl rfl
    (Heap.new_inv cmp le)
  exact ⟨a, b, c, by simpa [Heap.new] using d⟩

theorem Heap.run_facts {cmp : α → α → Bool} {le : α → α → Prop}
    (hc : Compat cmp le) :
    ∀ (ops : List (Op α)) (h : Heap α), h.comparator = cmp → h.wf → h.inv le →
      (h.run ops).comparator = cmp ∧ (h.run ops).wf ∧ (h.run ops).inv le := by
  intro ops
  induction ops with
  | nil =>
    intro h h1 h2 h3
    exact ⟨h1, h2, h3⟩
  | cons op rest ih =>
    intro h h1 h2 h3
    cases op with
    | push v =>
      exact ih (h.add v) h1 (Heap.add_wf h v h2) (Heap.add_inv (h1.symm ▸ hc) v h2 h3)
    | pop =>
      refine ih (h.next).2 ?_ (Heap.next_wf h h2) (Heap.next_inv (h1.symm ▸ hc) h2 h3)
      rw [Heap.next_comparator]
      exact h1

theorem Heap.run_stats_len :
    ∀ (ops : List (Op α)) (h : Heap α),
      (h.run_stats ops).1.len + (h.run_stats ops).2.2
        = h.len + (h.run_stats ops).2.1 := by
  intro ops
  induction ops with
  | nil =>
    intro h
    simp [Heap.run_stats]
  | cons op rest ih =>
    intro h
    cases op with
    | push v =>
      have := ih (h.add v)
      simp only [Heap.run_stats]
      have hlen : (h.add v).len = h.len + 1 := rfl
      omega
    | pop =>
      have := ih (h.next).2
      simp only [Heap.run_stats]
      rcases Nat.eq_zero_or_pos h.count with hc0 | hc0
      · have e1 : (h.next).1 = none := by rw [Heap.next_empty h hc0]
        have e2 : (h.next).2 = h := by rw [Heap.next_empty h hc0]
        rw [e2] at this
        rw [e1, e2]
        simp only [Option.isSome_none, Bool.false_eq_true, if_false]
        omega
      · have h1 : (h.next).1 = some (nth h.items 0) := Heap.next_pos_fst h hc0
        have h2 : (h.next).2.len = h.len - 1 := Heap.next_pos_count h hc0
        rw [h1]
        simp only [Option.isSome_some, if_true]
        have hl : h.len = h.count := rfl
        omega

/-! ### The checked layer never panics on well-formed heaps -/

theorem nth?_eq_some (l : List α) (i : Nat) (h : i < l.length) :
    nth? l i = some (nth l i) := by
  rw [nth_eq_getElem _ _ h]
  simp [nth?, List.get?_eq_getElem?, List.getElem?_eq_getElem h]

theorem smallest_child_idx_chk_eq (cmp : α → α → Bool) (count : Nat)
    (items : List α) (idx : Nat) (hlen : count ≤ items.length) :
    smallest_child_idx_chk cmp count items idx
      = some (smallest_child_idx cmp count items idx) := by
  unfold smallest_child_idx_chk smallest_child_idx
  by_cases hl : left_child_idx idx < count
  · by_cases hr : right_child_idx idx < count
    · simp only [if_pos hl, if_pos hr,
        nth?_eq_some items (left_child_idx idx) (by omega),
        nth?_eq_some items (right_child_idx idx) (by omega)]
    · simp only [if_pos hl, if_neg hr]
  · simp only [if_neg hl]

theorem bubble_down_aux_eq_none {cmp : α → α → Bool} {count : Nat}
    {items : List α} {pidx : Nat}
    (hsc : smallest_child_idx cmp count items pidx = none) :
    bubble_down_aux cmp count items pidx = items := by
  unfold bubble_down_aux
  split
  · rfl
  · rename_i cidx hsc2
    rw [hsc2] at hsc
    exact absurd hsc (by simp)

theorem bubble_down_aux_eq_some {cmp : α → α → Bool} {count : Nat}
    {items : List α} {pidx cidx : Nat}
    (hsc : smallest_child_idx cmp count items pidx = some cidx) :
    bubble_down_aux cmp count items pidx
      = if cmp (nth items pidx) (nth items cidx) then items
        else bubble_down_aux cmp count (lswap items pidx cidx) cidx := by
  conv_lhs => unfold bubble_down_aux
  split
  · rename_i hsc2
    rw [hsc2] at hsc
    exact absurd hsc (by simp)
  · rename_i cidx2 hsc2
    rw [hsc2] at hsc
    injection hsc with hsc
    subst hsc
    rfl

theorem bubble_down_chk_eq (cmp : α → α → Bool) (count : Nat) (items : List α)
    (pidx : Nat) (hlen : count = items.length) :
    bubble_down_chk cmp count items pidx
      = some (bubble_down_aux cmp count items pidx) := by
  have hchk := smallest_child_idx_chk_eq cmp count items pidx (le_of_eq hlen)
  unfold bubble_down_chk
  split
  · rename_i heq
    rw [hchk] at heq
    exact absurd heq (by simp)
  · rename_i heq
    rw [hchk] at heq
    injection heq with heq
    rw [bubble_down_aux_eq_none heq]
  · rename_i cidx heq
    rw [hchk] at heq
    injection heq with heq
    have hsc : smallest_child_idx cmp count items pidx = some cidx := heq
    have hb := smallest_child_idx_some hsc
    have hpl : pidx < items.length := by omega
    have hcl : cidx < items.length := by omega
    have hsw : lswap_chk items pidx cidx = some (lswap items pidx cidx) := by
      unfold lswap_chk
      rw [if_pos hpl, if_pos hcl]
    rw [bubble_down_aux_eq_some hsc]
    simp only [nth?_eq_some items pidx hpl, nth?_eq_some items cidx hcl, hsw]
    by_cases hcmp : cmp (nth items pidx) (nth items cidx) = true
    · simp only [if_pos hcmp]
    · simp only [if_neg hcmp]
      exact bubble_down_chk_eq cmp count (lswap items pidx cidx) cidx
        (by rw [length_lswap]; omega)
termination_by count - pidx
decreasing_by omega

theorem bubble_up_chk_eq (cmp : α → α → Bool) (items : List α) (cidx : Nat)
    (h : cidx < items.length ∨ cidx = 0) :
    bubble_up_chk cmp items cidx = some (bubble_up_aux cmp items cidx) := by
  unfold bubble_up_chk bubble_up_aux
  by_cases h0 : cidx = 0
  · rw [dif_pos h0, if_pos h0]
  · rw [dif_neg h0, if_neg h0]
    have hcl : cidx < items.length := by
      rcases h with h | h
      · exact h
      · exact absurd h h0
    have hplt : parent_idx cidx < cidx := parent_idx_lt cidx (by omega)
    split
    · rename_i hp
      unfold parent_idx_chk at hp
      rw [if_neg h0] at hp
      exact absurd hp (by simp)
    · rename_i pidx hp
      unfold parent_idx_chk at hp
      rw [if_neg h0] at hp
      injection hp with hp
      have hp2 : pidx = parent_idx cidx := hp.symm
      subst hp2
      have hsw : lswap_chk items cidx (parent_idx cidx)
          = some (lswap items cidx (parent_idx cidx)) := by
        unfold lswap_chk
        rw [if_pos hcl, if_pos (by omega)]
      simp only [nth?_eq_some items cidx hcl,
        nth?_eq_some items (parent_idx cidx) (by omega), hsw]
      by_cases hcmp : cmp (nth items cidx) (nth items (parent_idx cidx)) = true
      · simp only [if_pos hcmp]
        exact bubble_up_chk_eq cmp (lswap items cidx (parent_idx cidx))
          (parent_idx cidx) (Or.inl (by rw [length_lswap]; omega))
      · simp only [if_neg hcmp]
termination_by cidx
decreasing_by omega

theorem Heap.add_chk_eq (h : Heap α) (v : α) (hw : h.wf) :
    h.add_chk v = some (h.add v) := by
  rw [Heap.wf] at hw
  unfold Heap.add_chk Heap.add
  have hup := bubble_up_chk_eq h.comparator (h.items ++ [v]) (h.count + 1 - 1)
    (Or.inl (by simp [hw]))
  simp only [hup]

theorem Heap.next_chk_eq (h : Heap α) (hw : h.wf) : h.next_chk = some h.next := by
  have hwl : h.count = h.items.length := hw
  unfold Heap.next_chk Heap.next
  by_cases he : h.is_empty = true
  · rw [if_pos he, if_pos he]
  · rw [if_neg he, if_neg he]
    have hc0 : 0 < h.count := by
      simp [Heap.is_empty, Heap.len] at he
      omega
    have hne : 0 < h.items.length := by omega
    have hsr : swap_remove_front_chk h.items
        = some (nth h.items 0, (lswap h.items 0 (h.items.length - 1)).dropLast) := by
      unfold swap_remove_front_chk
      simp only [nth?_eq_some h.items 0 hne]
    have hbd := bubble_down_chk_eq h.comparator (h.count - 1)
      ((lswap h.items 0 (h.items.length - 1)).dropLast) 0
      (by simp [length_lswap]; omega)
    simp only [hsr, hbd]

/-! ### The fuel layer: both loops finish within an explicit budget -/

theorem bubble_up_fuel_eq (cmp : α → α → Bool) :
    ∀ (fuel : Nat) (items : List α) (cidx : Nat), cidx < fuel →
      bubble_up_fuel cmp fuel items cidx = some (bubble_up_aux cmp items cidx) := by
  intro fuel
  induction fuel with
  | zero =>
    intro items cidx h
    omega
  | succ f ih =>
    intro items cidx h
    unfold bubble_up_fuel bubble_up_aux
    by_cases h0 : cidx = 0
    · rw [if_pos h0, if_pos h0]
    · rw [if_neg h0, if_neg h0]
      have hplt : parent_idx cidx < cidx := parent_idx_lt cidx (by omega)
      by_cases hcmp : cmp (nth items cidx) (nth items (parent_idx cidx)) = true
      · rw [if_pos hcmp, if_pos hcmp]
        exact ih (lswap items cidx (parent_idx cidx)) (parent_idx cidx) (by omega)
      · rw [if_neg hcmp, if_neg hcmp]

theorem bubble_down_fuel_eq (cmp : α → α → Bool) (count : Nat) :
    ∀ (fuel : Nat) (items : List α) (pidx : Nat), count - pidx < fuel →
      bubble_down_fuel cmp count fuel items pidx
        = some (bubble_down_aux cmp count items pidx) := by
  intro fuel
  induction fuel with
  | zero =>
    intro items pidx h
    omega
  | succ f ih =>
    intro items pidx h
    unfold bubble_down_fuel
    cases hsc : smallest_child_idx cmp count items pidx with
    | none =>
      show some items = some (bubble_down_aux cmp count items pidx)
      rw [bubble_down_aux_eq_none hsc]
    | some cidx =>
      have hb := smallest_child_idx_some hsc
      show (if cmp (nth items pidx) (nth items cidx) = true then some items
            else bubble_down_fuel cmp count f (lswap items pidx cidx) cidx)
          = some (bubble_down_aux cmp count items pidx)
      rw [bubble_down_aux_eq_some hsc]
      by_cases hcmp : cmp (nth items pidx) (nth items cidx) = true
      · rw [if_pos hcmp, if_pos hcmp]
      · rw [if_neg hcmp, if_neg hcmp]
        exact ih (lswap items pidx cidx) cidx (by omega)

/-! ### The two concrete comparators against their orders -/

theorem compat_cmp_lt {β : Type} [LinearOrder β] :
    Compat (α := β) cmp_lt (· ≤ ·) := by
  refine ⟨?_, ?_, ?_, ?_⟩
  · intro a b hab
    exact le_of_lt (by simpa [cmp_lt] using hab)
  · intro a b hab
    exact le_of_not_lt (by simpa [cmp_lt] using hab)
  · intro a
    exact le_refl a
  · intro a b c
    exact le_trans

theorem compat_cmp_gt {β : Type} [LinearOrder β] :
    Compat (α := β) cmp_gt (fun a b => b ≤ a) := by
  refine ⟨?_, ?_, ?_, ?_⟩
  · intro a b hab
    exact le_of_lt (by simpa [cmp_gt] using hab)
  · intro a b hab
    exact le_of_not_lt (by simpa [cmp_gt] using hab)
  · intro a
    exact le_refl a
  · intro a b c h1 h2
    exact le_trans h2 h1

theorem Heap.run_wf : ∀ (ops : List (Op α)) (h : Heap α), h.wf → (h.run ops).wf := by
  intro ops
  induction ops with
  | nil =>
    intro h hw
    exact hw
  | cons op rest ih =>
    intro h hw
    cases op with
    | push v => exact ih (h.add v) (Heap.add_wf h v hw)
    | pop => exact ih (h.next).2 (Heap.next_wf h hw)

/-- Generic form of the sorting claim: draining a heap built from `l` with a
comparator compatible with an antisymmetric total order `r` yields the
`r`-sorted permutation of `l`. -/
theorem drainAux_eq_sort {cmp : α → α → Bool} {r : α → α → Prop}
    [DecidableRel r] (hc : Compat cmp r)
    (hanti : ∀ a b, r a b → r b a → a = b)
    (htot : ∀ a b, r a b ∨ r b a)
    (l : List α) (fuel : Nat) (hfuel : (heap_of_list cmp l).count ≤ fuel) :
    drainAux fuel (heap_of_list cmp l) = List.insertionSort r l := by
  obtain ⟨hcmp, hw, hinv, hperm⟩ := heap_of_list_facts hc l
  obtain ⟨hp, hs⟩ := drainAux_spec hc fuel _ hcmp hfuel hw hinv
  haveI : IsAntisymm α r := ⟨hanti⟩
  haveI : IsTotal α r := ⟨htot⟩
  haveI : IsTrans α r := ⟨fun a b c => hc.trans a b c⟩
  refine List.eq_of_perm_of_sorted
    ((hp.trans hperm).trans (List.perm_insertionSort r l).symm) hs ?_
  exact List.sorted_insertionSort r l

/-! ### The claims -/

/-- C1: building a heap with the min comparator (`a < b`) by `add`ing any
finite list of values of a totally ordered type and then repeatedly calling
`next` (the full drain, or any number of calls at least `len`, i.e. until it
yields nothing) produces exactly the ascending sort of the inputs; with the
max comparator (`a > b`) it produces the descending sort. -/
theorem C1_extraction_sorted [LinearOrder α] (l : List α) :
    (heap_of_list cmp_lt l).drain = List.insertionSort (· ≤ ·) l ∧
    (heap_of_list cmp_gt l).drain = List.insertionSort (fun a b => b ≤ a) l ∧
    (∀ fuel, (heap_of_list (cmp_lt (β := α)) l).count ≤ fuel →
      drainAux fuel (heap_of_list cmp_lt l) = List.insertionSort (· ≤ ·) l) ∧
    (∀ fuel, (heap_of_list (cmp_gt (β := α)) l).count ≤ fuel →
      drainAux fuel (heap_of_list cmp_gt l)
        = List.insertionSort (fun a b => b ≤ a) l) := by
  refine ⟨?_, ?_, ?_, ?_⟩
  · exact drainAux_eq_sort compat_cmp_lt (fun a b => le_antisymm)
      (fun a b => le_total a b) l _ (le_refl _)
  · exact drainAux_eq_sort compat_cmp_gt (fun a b h1 h2 => le_antisymm h2 h1)
      (fun a b => le_total b a) l _ (le_refl _)
  · intro fuel hfuel
    exact drainAux_eq_sort compat_cmp_lt (fun a b => le_antisymm)
      (fun a b => le_total a b) l fuel hfuel
  · intro fuel hfuel
    exact drainAux_eq_sort compat_cmp_gt (fun a b h1 h2 => le_antisymm h2 h1)
      (fun a b => le_total b a) l fuel hfuel

unseal bubble_up_aux bubble_down_aux in
/-- Witness for C1 at a concrete input. -/
theorem C1_extraction_sorted_witness :
    (heap_of_list (cmp_lt (β := Int)) [3, 1, 2]).count ≤ 5 ∧
    drainAux 5 (heap_of_list (cmp_lt (β := Int)) [3, 1, 2])
      = List.insertionSort (· ≤ ·) [3, 1, 2] :=
  ⟨by decide, (C1_extraction_sorted [3, 1, 2]).2.2.1 5 (by decide)⟩

unseal bubble_up_aux in
/-- C2 as stated is false on the code: after `add 1; add 1` on a min-heap,
index 1 is non-root with parent 0, `items = [1, 1]`, and the comparator
`items[0] < items[1]`, i.e. `1 < 1`, answers `false` — with a strict
comparator the parent does not win against an equal child. -/
theorem C2_counterexample :
    ((((Heap.new_min (α := Nat)).add 1).add 1).count = 2) ∧
    ((((Heap.new_min (α := Nat)).add 1).add 1).comparator
        (nth (((Heap.new_min (α := Nat)).add 1).add 1).items (parent_idx 1))
        (nth (((Heap.new_min (α := Nat)).add 1).add 1).items 1) = false) :=
  ⟨rfl, rfl⟩

/-- C2 (amended): after any finite sequence of `add` and `next` calls on a
heap built with the min comparator of a total order, every non-root element
is at least its parent — the parent wins the comparison or ties; dually, with
the max comparator every non-root element is at most its parent.  (The
original claim asserted the strict `comparator(items[p], items[i])`, which
fails for equal elements.) -/
theorem C2_heap_order_amended [LinearOrder α] (ops : List (Op α)) :
    (∀ i, 0 < i → i < ((Heap.new_min (α := α)).run ops).count →
      nth ((Heap.new_min (α := α)).run ops).items (parent_idx i)
        ≤ nth ((Heap.new_min (α := α)).run ops).items i) ∧
    (∀ i, 0 < i → i < ((Heap.new_max (α := α)).run ops).count →
      nth ((Heap.new_max (α := α)).run ops).items i
        ≤ nth ((Heap.new_max (α := α)).run ops).items (parent_idx i)) := by
  constructor
  · have h1 := Heap.run_facts (compat_cmp_lt (β := α)) ops (Heap.new cmp_lt)
      rfl rfl (Heap.new_inv _ _)
    exact fun i hi0 hic => h1.2.2 i hi0 hic
  · have h1 := Heap.run_facts (compat_cmp_gt (β := α)) ops (Heap.new cmp_gt)
      rfl rfl (Heap.new_inv _ _)
    exact fun i hi0 hic => h1.2.2 i hi0 hic

unseal bubble_up_aux bubble_down_aux in
/-- Witness for the amended C2 at a concrete trace. -/
theorem C2_heap_order_amended_witness :
    (0 < 1 ∧ 1 < ((Heap.new_min (α := Nat)).run [Op.push 2, Op.push 1]).count) ∧
    nth ((Heap.new_min (α := Nat)).run [Op.push 2, Op.push 1]).items (parent_idx 1)
      ≤ nth ((Heap.new_min (α := Nat)).run [Op.push 2, Op.push 1]).items 1 :=
  ⟨⟨by decide, by decide⟩,
   (C2_heap_order_amended [Op.push 2, Op.push 1]).1 1 (by decide) (by decide)⟩

/-- C3: `next` on an empty heap returns `None` and returns the heap state
completely unchanged (same `count`, same `items`, same comparator); hence
repeated `next` calls keep returning `None` until an `add` occurs. -/
theorem C3_next_empty (h : Heap α) (he : h.is_empty = true) :
    h.next = (none, h) := by
  have hc0 : h.count = 0 := by
    simpa [Heap.is_empty, Heap.len] using he
  exact Heap.next_empty h hc0

/-- Witness for C3 on the concrete empty heap. -/
theorem C3_next_empty_witness :
    (Heap.new_min (α := Nat)).is_empty = true ∧
    (Heap.new_min (α := Nat)).next = (none, Heap.new_min (α := Nat)) :=
  ⟨rfl, C3_next_empty _ rfl⟩

/-- C4: `count = items.length` holds for a fresh heap (`new`, `new_min`,
`new_max`), is preserved by `add` and by `next`, and therefore holds after
any finite sequence of public operations (`len` and `is_empty` do not mutate
the heap). -/
theorem C4_count_length [LinearOrder α] :
    (∀ cmp : α → α → Bool, (Heap.new cmp).wf) ∧
    (Heap.new_min (α := α)).wf ∧
    (Heap.new_max (α := α)).wf ∧
    (∀ (h : Heap α) (v : α), h.wf → (h.add v).wf) ∧
    (∀ h : Heap α, h.wf → (h.next).2.wf) ∧
    (∀ (cmp : α → α → Bool) (ops : List (Op α)), ((Heap.new cmp).run ops).wf) :=
  ⟨fun cmp => Heap.new_wf cmp, rfl, rfl,
   fun h v hw => Heap.add_wf h v hw,
   fun h hw => Heap.next_wf h hw,
   fun cmp ops => Heap.run_wf ops (Heap.new cmp) (Heap.new_wf cmp)⟩

unseal bubble_up_aux in
/-- Witness for C4 at a concrete heap and value. -/
theorem C4_count_length_witness :
    (Heap.new_min (α := Nat)).wf ∧ ((Heap.new_min (α := Nat)).add 7).wf :=
  ⟨rfl, (C4_count_length (α := Nat)).2.2.2.1 Heap.new_min 7 rfl⟩

/-- C5: running any finite sequence of `add`/`next` calls from a fresh heap,
`len()` plus the number of successful extractions equals the number of `add`
calls (so `len` is their difference and never negative), and `is_empty`
returns `true` exactly when `len()` is `0`. -/
theorem C5_count_consistency (cmp : α → α → Bool) (ops : List (Op α)) :
    ((Heap.new cmp).run_stats ops).1.len + ((Heap.new cmp).run_stats ops).2.2
        = ((Heap.new cmp).run_stats ops).2.1 ∧
    ((Heap.new cmp).run_stats ops).2.2 ≤ ((Heap.new cmp).run_stats ops).2.1 ∧
    ((Heap.new cmp).run_stats ops).1.len
        = ((Heap.new cmp).run_stats ops).2.1
          - ((Heap.new cmp).run_stats ops).2.2 ∧
    (((Heap.new cmp).run_stats ops).1.is_empty = true
        ↔ ((Heap.new cmp).run_stats ops).1.len = 0) := by
  have h := Heap.run_stats_len ops (Heap.new cmp)
  have hnew : (Heap.new cmp).len = 0 := rfl
  refine ⟨by omega, by omega, by omega, ?_⟩
  simp [Heap.is_empty]

unseal bubble_up_aux bubble_down_aux in
/-- C6: Scenario 3 on a max-heap of integers: after adding 4, 2, 9, 11 the
length is 4, the next three extractions yield 11, 9, 4, and after adding 1
the next extraction yields 2. -/
theorem C6_scenario_max :
    (((((Heap.new_max (α := Int)).add 4).add 2).add 9).add 11).len = 4 ∧
    (((((Heap.new_max (α := Int)).add 4).add 2).add 9).add 11).next.1
      = some 11 ∧
    (((((Heap.new_max (α := Int)).add 4).add 2).add 9).add 11).next.2.next.1
      = some 9 ∧
    (((((Heap.new_max (α := Int)).add 4).add 2).add 9).add 11).next.2.next.2.next.1 = some 4 ∧
    (((((((Heap.new_max (α := Int)).add 4).add 2).add 9).add 11).next.2.next.2.next.2).add 1).next.1 = some 2 :=
  ⟨rfl, rfl, rfl, rfl, rfl⟩

/-- C7: during bubble-down, `smallest_child_idx` selects — when both children
are below `count` — the child favoured by the comparator
(`comparator(left, right) ? left : right`); when only the left child is below
`count` it selects the left child; when no child is below `count` it selects
nothing, and `bubble_down` stops at that position. -/
theorem C7_child_selection (cmp : α → α → Bool) (count : Nat) (items : List α)
    (idx : Nat) :
    (left_child_idx idx < count → right_child_idx idx < count →
      smallest_child_idx cmp count items idx
        = if cmp (nth items (left_child_idx idx)) (nth items (right_child_idx idx))
          then some (left_child_idx idx) else some (right_child_idx idx)) ∧
    (left_child_idx idx < count → ¬ right_child_idx idx < count →
      smallest_child_idx cmp count items idx = some (left_child_idx idx)) ∧
    (¬ left_child_idx idx < count →
      smallest_child_idx cmp count items idx = none) ∧
    (smallest_child_idx cmp count items idx = none →
      bubble_down_aux cmp count items idx = items) := by
  refine ⟨?_, ?_, ?_, ?_⟩
  · intro hl hr
    simp only [smallest_child_idx, if_pos hl, if_pos hr]
  · intro hl hr
    simp only [smallest_child_idx, if_pos hl, if_neg hr]
  · intro hl
    simp only [smallest_child_idx, if_neg hl]
  · intro hnone
    exact bubble_down_aux_eq_none hnone

/-- Witness for C7 at a concrete state. -/
theorem C7_child_selection_witness :
    left_child_idx 0 < 3 ∧ right_child_idx 0 < 3 ∧
    smallest_child_idx (cmp_lt (β := Nat)) 3 [5, 2, 8] 0
      = if cmp_lt (nth [5, 2, 8] (left_child_idx 0)) (nth [5, 2, 8] (right_child_idx 0))
        then some (left_child_idx 0) else some (right_child_idx 0) :=
  ⟨by decide, by decide,
   (C7_child_selection cmp_lt 3 [5, 2, 8] 0).1 (by decide) (by decide)⟩

/-- C8: on any well-formed heap (`count = items.length`, which holds in every
reachable state), the checked versions of `add` and `next` — where every
element access, `Vec::swap`, `swap_remove(0)` and the `idx - 1` inside
`parent_idx` returns `none` exactly where Rust would panic or underflow —
succeed and agree with the total model: for any total comparator no index is
out of bounds and `parent_idx` is never evaluated at 0. -/
theorem C8_no_panic (h : Heap α) (v : α) (hw : h.wf) :
    h.add_chk v = some (h.add v) ∧ h.next_chk = some h.next :=
  ⟨Heap.add_chk_eq h v hw, Heap.next_chk_eq h hw⟩

unseal bubble_up_aux bubble_down_aux bubble_up_chk bubble_down_chk in
/-- Witness for C8 at a concrete heap. -/
theorem C8_no_panic_witness :
    ((Heap.new_min (α := Nat)).add 3).wf ∧
    (((Heap.new_min (α := Nat)).add 3).add_chk 5
       = some (((Heap.new_min (α := Nat)).add 3).add 5) ∧
     ((Heap.new_min (α := Nat)).add 3).next_chk
       = some ((Heap.new_min (α := Nat)).add 3).next) :=
  ⟨rfl, C8_no_panic _ 5 rfl⟩

/-- C9: both rebalancing loops terminate for every heap state and every total
comparator, within an explicit iteration budget: bubble-up finishes within
`cidx + 1` steps because the index strictly decreases toward 0, and
bubble-down finishes within any budget exceeding `count - pidx` because the
index strictly increases but stays below `count` — regardless of the boolean
answers of the comparator.  (All other public operations wrap these loops in
straight-line code.) -/
theorem C9_terminates (cmp : α → α → Bool) :
    (∀ (items : List α) (cidx fuel : Nat), cidx < fuel →
      bubble_up_fuel cmp fuel items cidx
        = some (bubble_up_aux cmp items cidx)) ∧
    (∀ (count : Nat) (items : List α) (pidx fuel : Nat), count - pidx < fuel →
      bubble_down_fuel cmp count fuel items pidx
        = some (bubble_down_aux cmp count items pidx)) :=
  ⟨fun items cidx fuel h => bubble_up_fuel_eq cmp fuel items cidx h,
   fun count items pidx fuel h => bubble_down_fuel_eq cmp count fuel items pidx h⟩

unseal bubble_up_aux in
/-- Witness for C9 at a concrete loop run. -/
theorem C9_terminates_witness :
    1 < 2 ∧
    bubble_up_fuel (cmp_lt (β := Nat)) 2 [2, 1] 1
      = some (bubble_up_aux cmp_lt [2, 1] 1) :=
  ⟨by decide, (C9_terminates cmp_lt).1 [2, 1] 1 2 (by decide)⟩

/-- C10: for a heap built with the min comparator over a totally ordered
type, after any finite sequence of `add` and `next` calls — duplicate values
included — every non-root element fails the strict comparison against its
parent: `comparator(items[i], items[p]) = false`; dually for the max
comparator. -/
theorem C10_weak_heap_property [LinearOrder α] (ops : List (Op α)) :
    (∀ i, 0 < i → i < ((Heap.new_min (α := α)).run ops).count →
      ((Heap.new_min (α := α)).run ops).comparator
        (nth ((Heap.new_min (α := α)).run ops).items i)
        (nth ((Heap.new_min (α := α)).run ops).items (parent_idx i)) = false) ∧
    (∀ i, 0 < i → i < ((Heap.new_max (α := α)).run ops).count →
      ((Heap.new_max (α := α)).run ops).comparator
        (nth ((Heap.new_max (α := α)).run ops).items i)
        (nth ((Heap.new_max (α := α)).run ops).items (parent_idx i)) = false) := by
  constructor
  · have h1 := Heap.run_facts (compat_cmp_lt (β := α)) ops (Heap.new cmp_lt)
      rfl rfl (Heap.new_inv _ _)
    intro i hi0 hic
    have hle := h1.2.2 i hi0 hic
    have hcmp : ((Heap.new_min (α := α)).run ops).comparator = cmp_lt := h1.1
    rw [hcmp]
    simp only [cmp_lt, decide_eq_false_iff_not]
    exact not_lt.mpr hle
  · have h1 := Heap.run_facts (compat_cmp_gt (β := α)) ops (Heap.new cmp_gt)
      rfl rfl (Heap.new_inv _ _)
    intro i hi0 hic
    have hle := h1.2.2 i hi0 hic
    have hcmp : ((Heap.new_max (α := α)).run ops).comparator = cmp_gt := h1.1
    rw [hcmp]
    simp only [cmp_gt, decide_eq_false_iff_not]
    exact not_lt.mpr hle

unseal bubble_up_aux bubble_down_aux in
/-- Witness for C10 at a concrete trace with duplicates. -/
theorem C10_weak_heap_property_witness :
    (0 < 1 ∧ 1 < ((Heap.new_min (α := Nat)).run [Op.push 1, Op.push 1]).count) ∧
    ((Heap.new_min (α := Nat)).run [Op.push 1, Op.push 1]).comparator
      (nth ((Heap.new_min (α := Nat)).run [Op.push 1, Op.push 1]).items 1)
      (nth ((Heap.new_min (α := Nat)).run [Op.push 1, Op.push 1]).items
        (parent_idx 1)) = false :=
  ⟨⟨by decide, by decide⟩,
   (C10_weak_heap_property [Op.push 1, Op.push 1]).1 1 (by decide) (by decide)⟩

end Algorithm9
